import Mathlib

/-!
Shallow embedding of the core of the `e-marchand/skills` repository
(4D project tooling): root location, class-declaration extraction,
dependency-manifest merging and source-tree enumeration, together with
theorems settling the frozen claims about the natural-language spec.

Text is modelled as `List Char` (ASCII fragment of Python's `str`);
filesystems as a flat list of directory entries whose list order models
the OS enumeration order; JSON values as an inductive `JVal` whose
objects are insertion-ordered association lists (Python `dict`).
-/

namespace Skills

/-! ### Character classes (ASCII fragment of Python's `\s`, `\w`, line breaks) -/

/-- Python whitespace as tested by `\s` and `str.strip` (ASCII fragment). -/
def pySpace (c : Char) : Bool :=
  c = ' ' || c = '\t' || c = '\n' || c = '\r' || c = '\x0b' || c = '\x0c'

/-- Line-break characters recognized by Python `str.splitlines`. -/
def isLineBreak (c : Char) : Bool :=
  c = '\n' || c = '\r' || c = '\x0b' || c = '\x0c' ||
  c = '\x1c' || c = '\x1d' || c = '\x1e' || c = '\u0085' ||
  c = '\u2028' || c = '\u2029'

/-- Python `\w` (ASCII fragment): letters, digits, underscore. -/
def isWord (c : Char) : Bool :=
  c.isAlpha || c.isDigit || c = '_'

/-- Character class `[\w.]` used for the tail of a function name. -/
def isWordDot (c : Char) : Bool :=
  isWord c || c = '.'

/-! ### `str.strip` and `str.splitlines` -/

/-- Python `str.strip()`: drop leading and trailing whitespace. -/
def pyStrip (s : List Char) : List Char :=
  ((s.dropWhile pySpace).reverse.dropWhile pySpace).reverse

/-- Python `str.splitlines()`: split on line breaks, `\r\n` counting as one
break; a trailing break does not produce a final empty line. -/
def splitLinesAux : List Char → List Char → List (List Char)
  | [], acc => if acc.isEmpty then [] else [acc.reverse]
  | '\r' :: '\n' :: rest, acc => acc.reverse :: splitLinesAux rest []
  | c :: rest, acc =>
    if isLineBreak c then acc.reverse :: splitLinesAux rest []
    else splitLinesAux rest (c :: acc)

def splitLinesPy (s : List Char) : List (List Char) :=
  splitLinesAux s []

/-! ### The three line patterns of `analyze_class` (project_info.py lines 57-75)

The regexes are matched with `re.match` (anchored at the start, trailing
text ignored) and `re.IGNORECASE`.  They are embedded as committed
first-match parsers; commitment is equivalent to the regex backtracking
semantics here because every literal that follows an optional or greedy
piece starts with a character that the preceding piece can never consume
(keywords start with letters, which are neither whitespace nor `/`), and
the input line has been stripped of surrounding whitespace first. -/

/-- Case-insensitive literal prefix; returns the rest of the input. -/
def litCI : List Char → List Char → Option (List Char)
  | [], s => some s
  | _ :: _, [] => none
  | c :: cs, x :: xs => if x.toLower = c.toLower then litCI cs xs else none

/-- `\s+` (greedy): requires at least one whitespace char, consumes the run. -/
def ws1 : List Char → Option (List Char)
  | [] => none
  | c :: rest => if pySpace c then some (rest.dropWhile pySpace) else none

/-- `re.match(r"Class\s+extends\s+(.+)", stripped, re.IGNORECASE)`,
returning `m.group(1).strip()`.  The input is a stripped line, so the
greedy `\s+` before the group never needs to back off. -/
def matchExtends (s : List Char) : Option (List Char) :=
  match litCI "class".toList s with
  | none => none
  | some s1 =>
    match ws1 s1 with
    | none => none
    | some s2 =>
      match litCI "extends".toList s2 with
      | none => none
      | some s3 =>
        match ws1 s3 with
        | none => none
        | some s4 => if s4.isEmpty then none else some (pyStrip s4)

/-- `re.match(r"property\s+(.+)", stripped, re.IGNORECASE)`,
returning `m.group(1).strip()`. -/
def matchProperty (s : List Char) : Option (List Char) :=
  match litCI "property".toList s with
  | none => none
  | some s1 =>
    match ws1 s1 with
    | none => none
    | some s2 => if s2.isEmpty then none else some (pyStrip s2)

/-- `re.match(r"(exposed\s+)?(shared\s+)?Function\s+(\w[\w.]*)", stripped,
re.IGNORECASE)`, returning (group1 present, group2 present, group3). -/
def matchFunction (s : List Char) : Option (Bool × Bool × List Char) :=
  let (e, s1) :=
    match litCI "exposed".toList s with
    | some r =>
      match ws1 r with
      | some r' => (true, r')
      | none => (false, s)
    | none => (false, s)
  let (sh, s2) :=
    match litCI "shared".toList s1 with
    | some r =>
      match ws1 r with
      | some r' => (true, r')
      | none => (false, s1)
    | none => (false, s1)
  match litCI "function".toList s2 with
  | none => none
  | some s3 =>
    match ws1 s3 with
    | none => none
    | some s4 =>
      match s4 with
      | [] => none
      | c :: cs => if isWord c then some (e, sh, c :: cs.takeWhile isWordDot) else none

/-! ### `analyze_class` (project_info.py lines 45-83), per-line state -/

structure ClassInfo where
  extendsName : Option (List Char)
  properties : List (List Char)
  functions : List (List Char)
deriving DecidableEq, Repr

/-- One iteration of the `for line in lines` loop of `analyze_class`:
each of the three patterns is tested independently against the stripped
line; `extends` is overwritten (last occurrence wins), properties and
functions are appended in order.  A recognized function is recorded as
the code records it: `f"{prefix}{name}"` with `prefix` accumulating
`"exposed "` then `"shared "`. -/
def analyzeStep (st : ClassInfo) (line : List Char) : ClassInfo :=
  let stripped := pyStrip line
  let st :=
    match matchExtends stripped with
    | some v => { st with extendsName := some v }
    | none => st
  let st :=
    match matchProperty stripped with
    | some v => { st with properties := st.properties ++ [v] }
    | none => st
  match matchFunction stripped with
  | some (e, sh, name) =>
    let prefixStr : List Char :=
      (if e then "exposed ".toList else []) ++ (if sh then "shared ".toList else [])
    { st with functions := st.functions ++ [prefixStr ++ name] }
  | none => st

/-- The whole loop of `analyze_class`, starting from
`props = []`, `funcs = []`, `extends = None`. -/
def analyzeClassLines (lines : List (List Char)) : ClassInfo :=
  lines.foldl analyzeStep ⟨none, [], []⟩

/-- `analyze_class` on a whole decodable file text: `content.splitlines()`
then the line loop. -/
def analyzeClassContent (content : List Char) : ClassInfo :=
  analyzeClassLines (splitLinesPy content)

/-- A line is recognized when at least one of the three patterns matches
its stripped form. -/
def recognizedLine (line : List Char) : Bool :=
  (matchExtends (pyStrip line)).isSome ||
  (matchProperty (pyStrip line)).isSome ||
  (matchFunction (pyStrip line)).isSome

/-! ### Filesystem model

An absolute path is the list of its components from the filesystem root
(the root itself is `[]`).  A filesystem is a flat list of entries
`(dir, name, isDir)`; the list order of the entries of one directory
models the order in which the OS enumerates them (`iterdir`, `glob` and
`rglob` return entries in that unspecified native order; Python sorts
only where the code calls `sorted`). -/

structure FSEntry where
  dir : List String
  name : String
  isDir : Bool
deriving DecidableEq, Repr

structure FS where
  entries : List FSEntry
deriving DecidableEq, Repr

/-- `Path.is_dir`: the root always is a directory. -/
def FS.isDirP (fs : FS) (p : List String) : Bool :=
  p.isEmpty || fs.entries.any fun e => e.dir ++ [e.name] = p && e.isDir

/-- `Path.is_file`. -/
def FS.isFileP (fs : FS) (p : List String) : Bool :=
  fs.entries.any fun e => e.dir ++ [e.name] = p && !e.isDir

/-- `Path.exists`. -/
def FS.existsP (fs : FS) (p : List String) : Bool :=
  fs.isDirP p || fs.isFileP p

/-- `Path.iterdir`: names of the immediate entries of `d`, in native
enumeration order (empty for a missing directory, as an abstraction of
the `is_dir`-guarded uses in the code). -/
def FS.listing (fs : FS) (d : List String) : List String :=
  (fs.entries.filter fun e => e.dir = d).map (·.name)

/-- `Path.name`: last component; `""` for the filesystem root. -/
def lastName (p : List String) : String :=
  (p.getLast?).getD ""

/-- `pathlib.PurePath.suffix` on the component's characters: the part
from the last dot on, provided that dot is neither the first nor the
last character of the name. -/
def pySuffixL (cs : List Char) : List Char :=
  let r := cs.reverse
  let pre := r.takeWhile fun c => c ≠ '.'
  if pre.length + 1 < r.length && !pre.isEmpty then '.' :: pre.reverse
  else []

def pySuffix (n : String) : String :=
  String.mk (pySuffixL n.toList)

/-- `pathlib.PurePath.stem`: final component without its suffix. -/
def pyStem (n : String) : String :=
  String.mk (n.toList.take (n.toList.length - (pySuffixL n.toList).length))

/-- `suffix.isSuffixOf n` for strings, characterwise. -/
def endsWithS (n pat : String) : Bool :=
  pat.toList.isSuffixOf n.toList

/-- Python string `<=`: code-point lexicographic order. -/
def charListLe : List Char → List Char → Bool
  | [], _ => true
  | _ :: _, [] => false
  | a :: as, b :: bs => if a = b then charListLe as bs else decide (a < b)

def strLe (a b : String) : Bool :=
  charListLe a.toList b.toList

/-- Python `str.split("/")`. -/
def splitSlash : List Char → List (List Char)
  | [] => [[]]
  | c :: rest =>
    match splitSlash rest with
    | [] => [[]]
    | g :: gs => if c = '/' then [] :: g :: gs else (c :: g) :: gs

/-- `pre.isPrefixOf n` for strings, characterwise. -/
def startsWithS (n pre : String) : Bool :=
  pre.toList.isPrefixOf n.toList

/-- The chain `[p, *p.parents]` of a resolved absolute path, ending at
the filesystem root `[]` (for `Path("/")`, `parents` is empty and the
chain is just the root itself), computed by structural recursion on the
reversed component list. -/
def ancestorsRev : List String → List (List String)
  | [] => [[]]
  | n :: rest => (n :: rest).reverse :: ancestorsRev rest

def ancestors (p : List String) : List (List String) :=
  ancestorsRev p.reverse

/-! ### The three root locators -/

/-- The root test inlined in the loop of
`project_info.py::find_project_root` (lines 16-21): `d` has a `Project`
subdirectory holding an entry whose `suffix` is `".4DProject"`
(`iterdir` is not filtered by `is_file`). -/
def projInfoTrigger (fs : FS) (d : List String) : Bool :=
  fs.isDirP (d ++ ["Project"]) &&
    (fs.listing (d ++ ["Project"])).any fun n => pySuffix n = ".4DProject"

/-- `project_info.py::find_project_root`: resolve, replace a file start
by its parent, then return the first element of `[p, *p.parents]`
passing the marker test. -/
def findProjectRootInfo (fs : FS) (start : List String) : Option (List String) :=
  let p := if fs.isFileP start then start.dropLast else start
  (ancestors p).find? (projInfoTrigger fs)

/-- Body of one iteration of `add_dependency.py::find_project_root`
(lines 52-60), as a disjunction: the tested directory triggers a return
when it contains `Project/Sources`, or is named `Sources` under a
`Project`, or is named `Project` and contains `Sources`. -/
def addDepTrigger (fs : FS) (p : List String) : Bool :=
  fs.isDirP (p ++ ["Project", "Sources"]) ||
  (lastName p = "Sources" && lastName p.dropLast = "Project") ||
  (lastName p = "Project" && fs.isDirP (p ++ ["Sources"]))

/-- `add_dependency.py::find_project_root`: `while current !=
current.parent` walks upward testing the three variants — the loop
guard stops at the filesystem root, so the root itself is never tested.
The name-based variants return an adjusted directory, not the tested
one.  Structural recursion on the reversed component list: `current` is
the reverse of the argument, stepping to `current.parent` drops the
head. -/
def addDepFindRev (fs : FS) : List String → Option (List String)
  | [] => none
  | n :: rest =>
    let p := (n :: rest).reverse
    if fs.isDirP (p ++ ["Project", "Sources"]) then some p
    else if lastName p = "Sources" && lastName p.dropLast = "Project" then
      some p.dropLast.dropLast
    else if lastName p = "Project" && fs.isDirP (p ++ ["Sources"]) then
      some p.dropLast
    else addDepFindRev fs rest

def findProjectRootAddDep (fs : FS) (start : List String) : Option (List String) :=
  addDepFindRev fs start.reverse

/-- First check of `clean.py::find_project_root` (lines 19-23): a
`Project` subfolder containing a file matching `*.4DProject`. -/
def cleanTrigA (fs : FS) (d : List String) : Bool :=
  fs.isDirP (d ++ ["Project"]) &&
    (fs.listing (d ++ ["Project"])).any fun n =>
      endsWithS n ".4DProject" && fs.isFileP (d ++ ["Project", n])

/-- Second check of `clean.py::find_project_root` (lines 26-29): the
tested directory is itself named `Project` and contains a matching
file; the function then returns its parent. -/
def cleanTrigB (fs : FS) (d : List String) : Bool :=
  lastName d = "Project" &&
    (fs.listing d).any fun n => endsWithS n ".4DProject" && fs.isFileP (d ++ [n])

/-- The `for directory in [current] + list(current.parents)` loop of
`clean.py::find_project_root`; `none` models the trailing
`FileNotFoundError`. -/
def cleanFindAux (fs : FS) : List (List String) → Option (List String)
  | [] => none
  | d :: rest =>
    if cleanTrigA fs d then some d
    else if cleanTrigB fs d then some d.dropLast
    else cleanFindAux fs rest

def findProjectRootClean (fs : FS) (start : List String) : Option (List String) :=
  cleanFindAux fs (ancestors start)

/-! ### JSON values and Python `dict` semantics

Objects are insertion-ordered association lists with unique keys:
assigning to an existing key replaces its value in place, assigning a
new key appends it — exactly Python's `dict` item assignment. -/

inductive JVal where
  | jnull : JVal
  | jbool : Bool → JVal
  | jnum : Int → JVal
  | jstr : String → JVal
  | jarr : List JVal → JVal
  | jobj : List (String × JVal) → JVal

/-- `d[k]` lookup (first — hence only — occurrence of the key). -/
def getKey : List (String × JVal) → String → Option JVal
  | [], _ => none
  | (k', v) :: rest, k => if k' = k then some v else getKey rest k

/-- `k in d`. -/
def hasKey (m : List (String × JVal)) (k : String) : Bool :=
  (getKey m k).isSome

/-- `d[k] = v`: replace in place if present, append if absent. -/
def setKey : List (String × JVal) → String → JVal → List (String × JVal)
  | [], k, v => [(k, v)]
  | (k', v') :: rest, k, v =>
    if k' = k then (k, v) :: rest else (k', v') :: setKey rest k v

/-! ### Dependency manifest merger (add_dependency.py lines 110-123, 171-181) -/

/-- Lines 175-180 of `add_dependency.py`: default the `dependencies`
mapping and the schema `version` only when absent, then assign
`dependencies[dep_name] = dep_entry`.  `none` models the `TypeError`
Python raises when the parsed manifest (or its `dependencies` value) is
not a mapping. -/
def upsertManifest (j : JVal) (name : String) (entry : JVal) : Option JVal :=
  match j with
  | JVal.jobj m =>
    let m1 := if hasKey m "dependencies" then m else setKey m "dependencies" (JVal.jobj [])
    let m2 := if hasKey m1 "version" then m1 else setKey m1 "version" (JVal.jnum 2130)
    match getKey m2 "dependencies" with
    | some (JVal.jobj deps) =>
      some (JVal.jobj (setKey m2 "dependencies" (JVal.jobj (setKey deps name entry))))
    | _ => none
  | _ => none

/-- Content of a file on disk as seen by `json.load`: either text that
parses to a JSON value, or text that makes `json.load` raise. -/
inductive FileContent where
  | jsonC : JVal → FileContent
  | badC : FileContent

/-- `load_json_file` (lines 110-115): empty dict if the file does not
exist, the parsed value if it parses — and an uncaught
`json.JSONDecodeError` (modelled as `Except.error`) if it does not:
there is no `try/except` around `json.load`. -/
def load_json_file : Option FileContent → Except Unit JVal
  | none => Except.ok (JVal.jobj [])
  | some (FileContent.jsonC j) => Except.ok j
  | some FileContent.badC => Except.error ()

/-- The manifest read/modify/write step of `add_dependency` (lines
172-181) applied to the current content of
`Project/Sources/dependencies.json`; `Except.ok j` means `j` is the
value passed to `save_json_file`, `Except.error` means an exception
propagated before any write, leaving the file untouched. -/
def addDepManifestStep (file : Option FileContent) (name : String) (entry : JVal) :
    Except Unit JVal :=
  match load_json_file file with
  | Except.error e => Except.error e
  | Except.ok j =>
    match upsertManifest j name entry with
    | some j' => Except.ok j'
    | none => Except.error ()

/-- The `dependencies` mapping of a manifest value (empty when absent
or not a mapping). -/
def manifestDeps (j : JVal) : List (String × JVal) :=
  match j with
  | JVal.jobj m =>
    match getKey m "dependencies" with
    | some (JVal.jobj d) => d
    | _ => []
  | _ => []

/-- Top-level fields of a manifest value. -/
def topFields (j : JVal) : List (String × JVal) :=
  match j with
  | JVal.jobj m => m
  | _ => []

/-! ### GitHub URL parsing and the dependency entry
(add_dependency.py lines 25-46, 147-169) -/

def is_github_url (repo : String) : Bool :=
  startsWithS repo "https://github.com/" || startsWithS repo "http://github.com/"

/-- `is_github_repo` (lines 75-82); `pathExists` abstracts
`os.path.exists`. -/
def is_github_repo (pathExists : String → Bool) (repo : String) : Bool :=
  if is_github_url repo then true
  else if pathExists repo then false
  else (splitSlash repo.toList).length = 2 && !startsWithS repo "/" && !startsWithS repo "."

/-- Tail `(?:\.git)?(?:/releases/tag/([^/]+))?/?$` of the GitHub URL
regex; returns the tag group when the tail matches.  Committing to each
optional piece when its literal prefix is present is equivalent to the
regex backtracking semantics, since skipping the piece then requires
the rest of the input to be `""` or `"/"`, which a present prefix
excludes. -/
def tagTail (u : List Char) : Option (Option (List Char)) :=
  let u1 := if u.take 4 = ".git".toList then u.drop 4 else u
  if u1.take 14 = "/releases/tag/".toList then
    let v := u1.drop 14
    let tg := v.takeWhile fun c => c ≠ '/'
    let rest := v.drop tg.length
    if !tg.isEmpty && (rest.isEmpty || rest = ['/']) then some (some tg) else none
  else if u1.isEmpty || u1 = ['/'] then some none
  else none

/-- Lazy `([^/]+?)` before `tagTail`: consume non-`/` characters one at
a time, testing the tail after each — the shortest nonempty prefix
whose suffix matches wins, exactly the lazy-quantifier semantics. -/
def repoScan (acc : List Char) : List Char → Option (List Char × Option (List Char))
  | [] => none
  | c :: rest =>
    if c = '/' then none
    else
      match tagTail rest with
      | some tg => some (acc ++ [c], tg)
      | none => repoScan (acc ++ [c]) rest

/-- `parse_github_url` (lines 25-41): match
`https?://github\.com/([^/]+/[^/]+?)(?:\.git)?(?:/releases/tag/([^/]+))?/?$`
and return `(owner/repo, tag)`, or `(none, none)` when the regex does
not match. -/
def parse_github_url (url : String) : Option String × Option String :=
  let cs := url.toList
  let afterScheme : Option (List Char) :=
    if cs.take 8 = "https://".toList then some (cs.drop 8)
    else if cs.take 7 = "http://".toList then some (cs.drop 7)
    else none
  match afterScheme with
  | none => (none, none)
  | some r1 =>
    if r1.take 11 = "github.com/".toList then
      let r2 := r1.drop 11
      let owner := r2.takeWhile fun c => c ≠ '/'
      let r3 := r2.drop owner.length
      if owner.isEmpty then (none, none)
      else
        match r3 with
        | '/' :: r4 =>
          match repoScan [] r4 with
          | some (repoPart, tg) =>
            (some (String.mk (owner ++ '/' :: repoPart)), tg.map String.mk)
          | none => (none, none)
        | _ => (none, none)
    else (none, none)

/-- Python truthiness of an optional string (`None` and `""` are falsy). -/
def strTruthy : Option String → Bool
  | none => false
  | some s => !(s = "")

/-- Lines 159-167 of `add_dependency.py`: the fields written for a
GitHub dependency entry — `{"github": path}` plus `tag` when the
effective tag is truthy, else `version` when the version is truthy. -/
def entryFields (github_path : String) (effective_tag version : Option String) :
    List (String × JVal) :=
  let base := [("github", JVal.jstr github_path)]
  if strTruthy effective_tag then
    match effective_tag with
    | some t => base ++ [("tag", JVal.jstr t)]
    | none => base
  else if strTruthy version then
    match version with
    | some v => base ++ [("version", JVal.jstr v)]
    | none => base
  else base

/-- Lines 147-169 of `add_dependency.py`: extract `url_tag` and
`github_path` from a GitHub URL, then build the dependency entry — the
effective tag is `tag or url_tag` (CLI tag taking precedence over the
URL tag); for a local repo the entry is the empty object. -/
def buildDepEntry (pathExists : String → Bool) (repo : String)
    (tag version : Option String) : List (String × JVal) :=
  let parsed := if is_github_url repo then parse_github_url repo else (none, none)
  let url_tag := parsed.2
  let github_path :=
    match parsed.1 with
    | some r => r
    | none => repo
  if is_github_repo pathExists repo then
    entryFields github_path (if strTruthy tag then tag else url_tag) version
  else []

/-! ### Source tree enumeration (project_info.py lines 25-29, 98-120, 161-177)

Python's `sorted` on paths of one directory orders them by name
(code-point lexicographic); it is embedded as a stable insertion sort.
`glob`/`rglob`/`iterdir` outputs keep the native order of the model. -/

/-- Insert into an already sorted list, after any equal names
(stability; equal strings are indistinguishable anyway). -/
def insertName (x : String) : List String → List String
  | [] => [x]
  | y :: ys => if strLe x y then x :: y :: ys else y :: insertName x ys

/-- Python `sorted` for lists of names. -/
def sortNames (l : List String) : List String :=
  l.foldr insertName []

/-- Adjacent-pairs sortedness check (code-point order on names). -/
def isSortedB : List String → Bool
  | [] => true
  | [_] => true
  | a :: b :: rest => strLe a b && isSortedB (b :: rest)

/-- `*<ext>` glob/fnmatch test (a bare `*` also matches an empty stem
and names starting with a dot). -/
def globSuffix (pat : String) (n : String) : Bool :=
  endsWithS n pat

/-- `directory.glob("*.4dm")` : matching immediate entries, native order. -/
def glob4dm (fs : FS) (d : List String) : List String :=
  (fs.listing d).filter (globSuffix ".4dm")

/-- `count_files` (lines 25-29): stems of files matching
`directory.rglob("*<extension>")`, i.e. matching files anywhere at or
below `d`, in native order. -/
def count_files (fs : FS) (d : List String) (extension : String) : List String :=
  ((fs.entries.filter fun e =>
      (d = e.dir || d.isPrefixOf e.dir) && !e.isDir && globSuffix extension e.name).map
    (·.name)).map pyStem

/-- `main` lines 162-165: filenames fed to `analyze_method`, sorted. -/
def mainMethodFilenames (fs : FS) (root : List String) : List String :=
  let dir := root ++ ["Project", "Sources", "Methods"]
  if fs.existsP dir then sortNames (glob4dm fs dir) else []

/-- `main` lines 168-171: filenames fed to `analyze_class`, sorted. -/
def mainClassFilenames (fs : FS) (root : List String) : List String :=
  let dir := root ++ ["Project", "Sources", "Classes"]
  if fs.existsP dir then sortNames (glob4dm fs dir) else []

/-- `main` line 174: database-method stems via `count_files`
(`rglob`, **not** sorted). -/
def dbMethodStems (fs : FS) (root : List String) : List String :=
  let dir := root ++ ["Project", "Sources", "DatabaseMethods"]
  if fs.existsP dir then count_files fs dir ".4dm" else []

/-- `analyze_forms` (lines 98-120): names of the immediate
subdirectories of `Forms`, from `sorted(forms_dir.iterdir())`. -/
def formNames (fs : FS) (root : List String) : List String :=
  let dir := root ++ ["Project", "Sources", "Forms"]
  if fs.existsP dir then
    (sortNames (fs.listing dir)).filter fun n => fs.isDirP (dir ++ [n])
  else []

/-- Line 116: per-form associated methods, `form_dir.glob("*.4dm")`
(**not** sorted), recorded as stems. -/
def formMethodStems (fs : FS) (root : List String) (form : String) : List String :=
  let dir := root ++ ["Project", "Sources", "Forms", form]
  (glob4dm fs dir).map pyStem

/-! ## Supporting lemmas -/

/-! ### Association lists (Python `dict`) -/

theorem getKey_setKey_self (l : List (String × JVal)) (k : String) (v : JVal) :
    getKey (setKey l k v) k = some v := by
  induction l with
  | nil => simp [setKey, getKey]
  | cons hd tl ih =>
    obtain ⟨k', v'⟩ := hd
    by_cases h : k' = k
    · simp [setKey, h, getKey]
    · simp [setKey, h, getKey, ih]

theorem getKey_setKey_ne (l : List (String × JVal)) (k k' : String) (v : JVal)
    (h : k' ≠ k) : getKey (setKey l k v) k' = getKey l k' := by
  induction l with
  | nil => simp [setKey, getKey, Ne.symm h]
  | cons hd tl ih =>
    obtain ⟨k₀, v₀⟩ := hd
    by_cases h₀ : k₀ = k
    · subst h₀
      simp [setKey, getKey, Ne.symm h]
    · simp only [setKey, if_neg h₀, getKey]
      by_cases h₁ : k₀ = k'
      · simp [h₁]
      · simp [h₁, ih]

theorem setKey_setKey (l : List (String × JVal)) (k : String) (v w : JVal) :
    setKey (setKey l k v) k w = setKey l k w := by
  induction l with
  | nil => simp [setKey]
  | cons hd tl ih =>
    obtain ⟨k₀, v₀⟩ := hd
    by_cases h : k₀ = k
    · simp [setKey, h]
    · simp [setKey, h, ih]

theorem hasKey_setKey_self (l : List (String × JVal)) (k : String) (v : JVal) :
    hasKey (setKey l k v) k = true := by
  simp [hasKey, getKey_setKey_self]

/-! ### Ancestor chains -/

theorem ancestors_nil : ancestors [] = [[]] := rfl

/-- The defining step of the upward walk: for a nonroot path the chain
is the path followed by the chain of its parent. -/
theorem ancestors_eq_cons (p : List String) (hp : p ≠ []) :
    ancestors p = p :: ancestors p.dropLast := by
  rcases (List.eq_nil_or_concat p) with h | ⟨q, x, h⟩
  · exact absurd h hp
  · subst h
    rw [ancestors, List.concat_eq_append, List.reverse_append]
    simp only [List.reverse_cons, List.reverse_nil, List.nil_append,
      List.singleton_append, ancestorsRev, List.reverse_reverse]
    rw [List.dropLast_concat]
    simp [ancestors]

theorem root_mem_ancestorsRev (l : List String) : [] ∈ ancestorsRev l := by
  induction l with
  | nil => simp [ancestorsRev]
  | cons n rest ih => simp [ancestorsRev, ih]

theorem root_mem_ancestors (p : List String) : [] ∈ ancestors p :=
  root_mem_ancestorsRev p.reverse

theorem reverse_mem_ancestorsRev (l : List String) : l.reverse ∈ ancestorsRev l := by
  cases l with
  | nil => simp [ancestorsRev]
  | cons n rest => simp [ancestorsRev]

/-! ### `find?` returns the unique match -/

theorem find?_unique {α : Type} (l : List α) (p : α → Bool) (R : α)
    (hmem : R ∈ l) (hR : p R = true) (huniq : ∀ x ∈ l, p x = true → x = R) :
    l.find? p = some R := by
  induction l with
  | nil => cases hmem
  | cons a l' ih =>
    by_cases ha : p a = true
    · have haR : a = R := huniq a (List.mem_cons_self a l') ha
      subst haR
      simp [List.find?, ha]
    · have hne : R ≠ a := fun h => ha (h ▸ hR)
      have hmem' : R ∈ l' := by
        rcases List.mem_cons.mp hmem with h | h
        · exact absurd h.symm (Ne.symm hne)
        · exact h
      simp only [List.find?]
      rw [Bool.eq_false_iff.mpr ha]
      exact ih hmem' fun x hx hpx => huniq x (List.mem_cons_of_mem a hx) hpx

/-! ### The `add_dependency` walk -/

/-- The walk returns `none` exactly when no nonroot element of the chain
triggers any of the three marker variants. -/
theorem addDepFindRev_eq_none_iff (fs : FS) (l : List String) :
    addDepFindRev fs l = none ↔
      ∀ q ∈ ancestorsRev l, q ≠ [] → addDepTrigger fs q = false := by
  induction l with
  | nil =>
    simp [addDepFindRev, ancestorsRev]
  | cons n rest ih =>
    simp only [addDepFindRev, ancestorsRev]
    by_cases h1 : fs.isDirP ((n :: rest).reverse ++ ["Project", "Sources"]) = true
    · simp only [h1, if_true]
      constructor
      · intro h; cases h
      · intro h
        have hq := h (n :: rest).reverse (by simp)
          (by simp [List.reverse_eq_nil_iff])
        rw [addDepTrigger, h1] at hq
        simp at hq
    · by_cases h2 : (lastName (n :: rest).reverse = "Sources" &&
          lastName (n :: rest).reverse.dropLast = "Project") = true
      · simp only [h1, if_false, h2, if_true, Bool.false_eq_true]
        constructor
        · intro h; cases h
        · intro h
          have hq := h (n :: rest).reverse (by simp)
            (by simp [List.reverse_eq_nil_iff])
          rw [addDepTrigger, h2] at hq
          simp at hq
      · by_cases h3 : (lastName (n :: rest).reverse = "Project" &&
            fs.isDirP ((n :: rest).reverse ++ ["Sources"])) = true
        · simp only [h1, h2, h3, Bool.false_eq_true, if_false, if_true]
          constructor
          · intro h; cases h
          · intro h
            have hq := h (n :: rest).reverse (by simp)
              (by simp [List.reverse_eq_nil_iff])
            rw [addDepTrigger, h3] at hq
            simp at hq
        · simp only [h1, h2, h3, Bool.false_eq_true, if_false]
          rw [ih]
          constructor
          · intro h q hq hqne
            rcases List.mem_cons.mp hq with rfl | hq'
            · rw [addDepTrigger]
              simp only [Bool.eq_false_iff] at h1 h2 h3 ⊢
              intro hor
              rcases Bool.or_eq_true_iff.mp hor with hor' | hc3
              · rcases Bool.or_eq_true_iff.mp hor' with hc1 | hc2
                · exact h1 hc1
                · exact h2 hc2
              · exact h3 hc3
            · exact h q hq' hqne
          · intro h q hq hqne
            exact h q (List.mem_cons_of_mem _ hq) hqne

/-- The walk returns the unique triggering ancestor, provided it is not
the filesystem root and it qualifies through the `Project/Sources`
containment variant (the variant that returns the tested directory
itself). -/
theorem addDepFindRev_unique (fs : FS) (l : List String) (R : List String)
    (hRne : R ≠ [])
    (hR : fs.isDirP (R ++ ["Project", "Sources"]) = true)
    (hmem : R ∈ ancestorsRev l)
    (huniq : ∀ d ∈ ancestorsRev l, addDepTrigger fs d = true → d = R) :
    addDepFindRev fs l = some R := by
  induction l with
  | nil =>
    simp only [ancestorsRev, List.mem_singleton] at hmem
    exact absurd hmem hRne
  | cons n rest ih =>
    by_cases htop : (n :: rest).reverse = R
    · simp only [addDepFindRev, htop, hR, if_true]
    · have hmem' : R ∈ ancestorsRev rest := by
        rcases List.mem_cons.mp hmem with h | h
        · exact absurd h.symm htop
        · exact h
      have htrig : addDepTrigger fs (n :: rest).reverse = false := by
        by_contra h
        have := huniq (n :: rest).reverse (by simp [ancestorsRev])
          (Bool.not_eq_false _ |>.mp h)
        exact htop this
      rw [addDepTrigger] at htrig
      have hc1 : fs.isDirP ((n :: rest).reverse ++ ["Project", "Sources"]) = false := by
        rcases Bool.or_eq_false_iff.mp htrig with ⟨h', _⟩
        exact (Bool.or_eq_false_iff.mp h').1
      have hc2 : (lastName (n :: rest).reverse = "Sources" &&
          lastName (n :: rest).reverse.dropLast = "Project") = false := by
        rcases Bool.or_eq_false_iff.mp htrig with ⟨h', _⟩
        exact (Bool.or_eq_false_iff.mp h').2
      have hc3 : (lastName (n :: rest).reverse = "Project" &&
          fs.isDirP ((n :: rest).reverse ++ ["Sources"])) = false :=
        (Bool.or_eq_false_iff.mp htrig).2
      simp only [addDepFindRev, hc1, hc2, hc3, Bool.false_eq_true, if_false]
      exact ih hmem' fun d hd ht => huniq d (List.mem_cons_of_mem _ hd) ht

/-! ### The `clean` walk -/

theorem cleanFindAux_eq_none_iff (fs : FS) (L : List (List String)) :
    cleanFindAux fs L = none ↔
      ∀ d ∈ L, cleanTrigA fs d = false ∧ cleanTrigB fs d = false := by
  induction L with
  | nil => simp [cleanFindAux]
  | cons d rest ih =>
    by_cases hA : cleanTrigA fs d = true
    · simp only [cleanFindAux, if_pos hA]
      constructor
      · intro h; cases h
      · intro h
        have h1 := (h d (List.mem_cons_self d rest)).1
        rw [hA] at h1; cases h1
    · by_cases hB : cleanTrigB fs d = true
      · simp only [cleanFindAux, if_neg hA, if_pos hB]
        constructor
        · intro h; cases h
        · intro h
          have h1 := (h d (List.mem_cons_self d rest)).2
          rw [hB] at h1; cases h1
      · simp only [cleanFindAux, if_neg hA, if_neg hB]
        rw [ih]
        constructor
        · intro h q hq
          rcases List.mem_cons.mp hq with rfl | hq'
          · exact ⟨Bool.eq_false_iff.mpr hA, Bool.eq_false_iff.mpr hB⟩
          · exact h q hq'
        · intro h q hq
          exact h q (List.mem_cons_of_mem _ hq)

/-! ### Lexicographic order on names: totality, transitivity, sorting -/

theorem charListLe_total (a b : List Char) :
    charListLe a b = false → charListLe b a = true := by
  induction a generalizing b with
  | nil => intro h; cases h
  | cons x xs ih =>
    intro h
    cases b with
    | nil => rfl
    | cons y ys =>
      by_cases hxy : x = y
      · subst hxy
        rw [charListLe, if_pos rfl] at h ⊢
        exact ih ys h
      · rw [charListLe, if_neg hxy] at h
        rw [charListLe, if_neg (Ne.symm hxy)]
        have : ¬ x < y := by simpa using h
        have hyx : y < x := lt_of_le_of_ne (not_lt.mp this) (Ne.symm hxy)
        simp [hyx]

theorem charListLe_trans (a b c : List Char)
    (h1 : charListLe a b = true) (h2 : charListLe b c = true) :
    charListLe a c = true := by
  induction a generalizing b c with
  | nil => rfl
  | cons x xs ih =>
    cases b with
    | nil => cases h1
    | cons y ys =>
      cases c with
      | nil => cases h2
      | cons z zs =>
        by_cases hxy : x = y
        · subst hxy
          rw [charListLe, if_pos rfl] at h1
          by_cases hyz : x = z
          · subst hyz
            rw [charListLe, if_pos rfl] at h2 ⊢
            exact ih ys zs h1 h2
          · rw [charListLe, if_neg hyz] at h2 ⊢
            exact h2
        · rw [charListLe, if_neg hxy] at h1
          have hlt1 : x < y := by simpa using h1
          by_cases hyz : y = z
          · subst hyz
            rw [charListLe, if_neg hxy]
            simp [hlt1]
          · rw [charListLe, if_neg hyz] at h2
            have hlt2 : y < z := by simpa using h2
            have hxz : x < z := lt_trans hlt1 hlt2
            rw [charListLe, if_neg (ne_of_lt hxz)]
            simp [hxz]

theorem strLe_total (a b : String) (h : strLe a b = false) : strLe b a = true :=
  charListLe_total a.toList b.toList h

theorem strLe_trans (a b c : String) (h1 : strLe a b = true)
    (h2 : strLe b c = true) : strLe a c = true :=
  charListLe_trans a.toList b.toList c.toList h1 h2

theorem isSortedB_cons (a : String) (l : List String) :
    isSortedB (a :: l) = true ↔
      (∀ b, l.head? = some b → strLe a b = true) ∧ isSortedB l = true := by
  cases l with
  | nil => simp [isSortedB]
  | cons b bs =>
    rw [isSortedB]
    simp only [Bool.and_eq_true, List.head?]
    constructor
    · rintro ⟨h1, h2⟩
      exact ⟨fun c hc => by cases hc; exact h1, h2⟩
    · rintro ⟨h1, h2⟩
      exact ⟨h1 b rfl, h2⟩

theorem insertName_sorted (x : String) (l : List String)
    (h : isSortedB l = true) : isSortedB (insertName x l) = true := by
  induction l with
  | nil => rfl
  | cons y ys ih =>
    by_cases hxy : strLe x y = true
    · rw [insertName, if_pos hxy, isSortedB]
      simp [hxy, h]
    · have hyx : strLe y x = true := strLe_total x y (Bool.eq_false_iff.mpr hxy)
      rw [insertName, if_neg hxy]
      rcases (isSortedB_cons y ys).mp h with ⟨hhead, hys⟩
      have hins := ih hys
      rw [isSortedB_cons]
      refine ⟨?_, hins⟩
      intro b hb
      cases ys with
      | nil =>
        rw [insertName] at hb
        cases hb
        exact hyx
      | cons z zs =>
        by_cases hxz : strLe x z = true
        · rw [insertName, if_pos hxz] at hb
          cases hb
          exact hyx
        · rw [insertName, if_neg hxz] at hb
          cases hb
          exact hhead _ rfl

theorem sortNames_sorted (l : List String) : isSortedB (sortNames l) = true := by
  induction l with
  | nil => rfl
  | cons x xs ih => exact insertName_sorted x (sortNames xs) ih

/-- Every tail element of a sorted list is bounded below by the head. -/
theorem isSortedB_head_le (a : String) (l : List String)
    (h : isSortedB (a :: l) = true) : ∀ x ∈ l, strLe a x = true := by
  induction l generalizing a with
  | nil => intro x hx; cases hx
  | cons b bs ih =>
    rcases (isSortedB_cons a (b :: bs)).mp h with ⟨hhead, htail⟩
    have hab : strLe a b = true := hhead b rfl
    intro x hx
    rcases List.mem_cons.mp hx with rfl | hx'
    · exact hab
    · exact strLe_trans a b x hab (ih b htail x hx')

theorem isSortedB_filter (p : String → Bool) (l : List String)
    (h : isSortedB l = true) : isSortedB (l.filter p) = true := by
  induction l with
  | nil => rfl
  | cons a l' ih =>
    rcases (isSortedB_cons a l').mp h with ⟨_, htail⟩
    by_cases hp : p a = true
    · rw [List.filter_cons_of_pos hp, isSortedB_cons]
      refine ⟨?_, ih htail⟩
      intro b hb
      have hmem : b ∈ l'.filter p := List.mem_of_mem_head? (by simpa [Option.mem_def] using hb)
      exact isSortedB_head_le a l' h b (List.mem_of_mem_filter hmem)
    · rw [List.filter_cons_of_neg hp]
      exact ih htail

/-! ### `analyze_class` helpers -/

theorem analyzeStep_unrecognized (st : ClassInfo) (line : List Char)
    (h : recognizedLine line = false) : analyzeStep st line = st := by
  rw [recognizedLine] at h
  simp only [Bool.or_eq_false_iff] at h
  obtain ⟨⟨h1, h2⟩, h3⟩ := h
  have e1 : matchExtends (pyStrip line) = none :=
    Option.not_isSome_iff_eq_none.mp (by simp [h1])
  have e2 : matchProperty (pyStrip line) = none :=
    Option.not_isSome_iff_eq_none.mp (by simp [h2])
  have e3 : matchFunction (pyStrip line) = none :=
    Option.not_isSome_iff_eq_none.mp (by simp [h3])
  rw [analyzeStep]
  simp only [e1, e2, e3]

theorem analyzeClassLines_unrecognized (lines : List (List Char)) (st : ClassInfo)
    (h : ∀ l ∈ lines, recognizedLine l = false) :
    lines.foldl analyzeStep st = st := by
  induction lines generalizing st with
  | nil => rfl
  | cons l ls ih =>
    rw [List.foldl_cons, analyzeStep_unrecognized st l (h l (List.mem_cons_self l ls))]
    exact ih st fun l' hl' => h l' (List.mem_cons_of_mem l hl')

theorem pySpace_of_isWordDot (c : Char) (h : isWordDot c = true) :
    pySpace c = false := by
  by_contra hcon
  have hsp : pySpace c = true := Bool.not_eq_false _ |>.mp hcon
  rw [pySpace] at hsp
  simp only [Bool.or_eq_true_iff, decide_eq_true_eq] at hsp
  rcases hsp with ((((h1 | h1) | h1) | h1) | h1) | h1 <;> subst h1 <;> cases h

theorem takeWhile_all {α : Type} (p : α → Bool) (l : List α)
    (h : ∀ x ∈ l, p x = true) : l.takeWhile p = l := by
  induction l with
  | nil => rfl
  | cons a l' ih =>
    rw [List.takeWhile_cons, h a (List.mem_cons_self a l'), if_pos rfl,
      ih fun x hx => h x (List.mem_cons_of_mem a hx)]

theorem dropWhile_cons_of_neg {α : Type} (p : α → Bool) (a : α) (l : List α)
    (h : p a = false) : (a :: l).dropWhile p = a :: l := by
  rw [List.dropWhile_cons, h]
  rfl

/-- A string whose first and last characters are not whitespace strips
to itself. -/
theorem pyStrip_eq_self (l : List Char)
    (hhead : ∀ c, l.head? = some c → pySpace c = false)
    (hlast : ∀ c, l.getLast? = some c → pySpace c = false) :
    pyStrip l = l := by
  cases l with
  | nil => rfl
  | cons a l' =>
    rw [pyStrip, dropWhile_cons_of_neg pySpace a l' (hhead a rfl)]
    rcases List.eq_nil_or_concat (a :: l') with h | ⟨q, x, h⟩
    · cases h
    · rw [h, List.concat_eq_append, List.reverse_append]
      simp only [List.reverse_cons, List.reverse_nil, List.nil_append,
        List.singleton_append]
      rw [dropWhile_cons_of_neg pySpace x q.reverse]
      · simp
      · refine hlast x ?_
        rw [h, List.concat_eq_append, List.getLast?_append]
        rfl

/-! ## Concrete filesystems used by counterexamples and witnesses -/

/-- A filesystem in which the only directory qualifying as a project
root is the filesystem root itself: `/Project/Sources` exists and `/u`
is an ordinary directory. -/
def fsRootOnly : FS :=
  ⟨[⟨[], "Project", true⟩, ⟨["Project"], "Sources", true⟩, ⟨[], "u", true⟩]⟩

/-- A filesystem whose root `Project` folder holds two `.4DProject`
marker files. -/
def fsTwoMarkers : FS :=
  ⟨[⟨[], "Project", true⟩, ⟨["Project"], "A.4DProject", false⟩,
    ⟨["Project"], "B.4DProject", false⟩, ⟨[], "u", true⟩]⟩

/-- A filesystem whose root `Project` folder holds exactly one
`.4DProject` marker file. -/
def fsOneMarker : FS :=
  ⟨[⟨[], "Project", true⟩, ⟨["Project"], "A.4DProject", false⟩, ⟨[], "u", true⟩]⟩

/-- A project rooted at `/r`, whose `DatabaseMethods` files and the
form `F1`'s method files are enumerated by the OS in non-lexicographic
order. -/
def fsProj : FS :=
  ⟨[⟨[], "r", true⟩, ⟨["r"], "Project", true⟩, ⟨["r", "Project"], "Sources", true⟩,
    ⟨["r", "Project", "Sources"], "DatabaseMethods", true⟩,
    ⟨["r", "Project", "Sources", "DatabaseMethods"], "b.4dm", false⟩,
    ⟨["r", "Project", "Sources", "DatabaseMethods"], "a.4dm", false⟩,
    ⟨["r", "Project", "Sources"], "Methods", true⟩,
    ⟨["r", "Project", "Sources", "Methods"], "z.4dm", false⟩,
    ⟨["r", "Project", "Sources", "Methods"], "y.4dm", false⟩,
    ⟨["r", "Project", "Sources"], "Forms", true⟩,
    ⟨["r", "Project", "Sources", "Forms"], "F1", true⟩,
    ⟨["r", "Project", "Sources", "Forms", "F1"], "n.4dm", false⟩,
    ⟨["r", "Project", "Sources", "Forms", "F1"], "m.4dm", false⟩]⟩

/-! ## Claims -/

/-- C1 counterexample: in `fsRootOnly`, the unique ancestor of `/u`
qualifying as a project root (it contains `Project/Sources`) is the
filesystem root, yet `add_dependency.py::find_project_root` returns
`NotFound` instead of that root, because its loop guard
`while current != current.parent` stops before testing the root. -/
theorem c1_counterexample :
    addDepTrigger fsRootOnly [] = true ∧
    (∀ d ∈ ancestors ["u"], addDepTrigger fsRootOnly d = true → d = []) ∧
    findProjectRootAddDep fsRootOnly ["u"] = none := by
  decide

/-- C1 (amended): if the ancestor chain of start path `P` contains
exactly one directory `R` qualifying as a project root, then the
`project_info.py` locator returns `R` whatever the depth of `P` below
`R`; the `add_dependency.py` locator also returns `R` provided `R` is
not the filesystem root (which it never tests) and `R` qualifies by
containing a `Project/Sources` subdirectory (its name-based marker
variants return an adjusted directory instead of the tested one). -/
theorem c1_amended :
    (∀ (fs : FS) (p R : List String), fs.isFileP p = false →
      R ∈ ancestors p → projInfoTrigger fs R = true →
      (∀ d ∈ ancestors p, projInfoTrigger fs d = true → d = R) →
      findProjectRootInfo fs p = some R) ∧
    (∀ (fs : FS) (p R : List String), R ≠ [] →
      fs.isDirP (R ++ ["Project", "Sources"]) = true →
      R ∈ ancestors p →
      (∀ d ∈ ancestors p, addDepTrigger fs d = true → d = R) →
      findProjectRootAddDep fs p = some R) := by
  constructor
  · intro fs p R hfile hmem htrig huniq
    rw [findProjectRootInfo]
    simp only [hfile, Bool.false_eq_true, if_false]
    exact find?_unique (ancestors p) (projInfoTrigger fs) R hmem htrig huniq
  · intro fs p R hne hdir hmem huniq
    exact addDepFindRev_unique fs p.reverse R hne hdir hmem huniq

theorem c1_amended_witness :
    findProjectRootInfo fsOneMarker ["u", "v", "w"] = some [] ∧
    findProjectRootAddDep fsProj ["r", "x", "y"] = some ["r"] := by
  constructor
  · exact c1_amended.1 fsOneMarker ["u", "v", "w"] [] (by decide) (by decide)
      (by decide) (by decide)
  · exact c1_amended.2 fsProj ["r", "x", "y"] ["r"] (by decide) (by decide)
      (by decide) (by decide)

/-- C2 counterexample: in `fsRootOnly` the filesystem root qualifies
(it contains `Project/Sources`) and is an ancestor of `/u`, yet the
`add_dependency.py` locator reports `NotFound` from `/u`: the root is
never among the tested ancestors. -/
theorem c2_counterexample :
    addDepTrigger fsRootOnly [] = true ∧
    [] ∈ ancestors ["u"] ∧
    findProjectRootAddDep fsRootOnly ["u"] = none := by
  decide

/-- C2 (amended): the `project_info.py` and `clean.py` locators return
`NotFound` exactly when no ancestor of the start directory — the
filesystem root, which belongs to the tested chain, included — passes
their root test; the `add_dependency.py` locator stops its walk before
the filesystem root, so it returns `NotFound` exactly when no ancestor
other than the root triggers its markers. -/
theorem c2_amended (fs : FS) (p : List String) :
    (findProjectRootInfo fs p = none ↔
      ∀ d ∈ ancestors (if fs.isFileP p then p.dropLast else p),
        projInfoTrigger fs d = false) ∧
    [] ∈ ancestors p ∧
    (findProjectRootClean fs p = none ↔
      ∀ d ∈ ancestors p, cleanTrigA fs d = false ∧ cleanTrigB fs d = false) ∧
    (findProjectRootAddDep fs p = none ↔
      ∀ d ∈ ancestors p, d ≠ [] → addDepTrigger fs d = false) := by
  refine ⟨?_, root_mem_ancestors p, cleanFindAux_eq_none_iff fs (ancestors p), ?_⟩
  · rw [findProjectRootInfo, List.find?_eq_none]
    simp only [Bool.not_eq_true]
  · exact addDepFindRev_eq_none_iff fs p.reverse

theorem c2_amended_witness : findProjectRootAddDep fsRootOnly ["u"] = none :=
  ((c2_amended fsRootOnly ["u"]).2.2.2).mpr (by decide)

/-- C3 counterexample: a `Project` subdirectory holding two
`.4DProject` files still makes its parent qualify under the fourth
marker variant — the code tests for at least one marker entry, not
exactly one. -/
theorem c3_counterexample :
    projInfoTrigger fsTwoMarkers [] = true ∧
    cleanTrigA fsTwoMarkers [] = true ∧
    (fsTwoMarkers.listing ["Project"]).countP
      (fun n => pySuffix n = ".4DProject") = 2 := by
  decide

/-- C3 (amended): under the fourth marker variant a directory qualifies
if and only if it has a `Project` subdirectory holding at least one
entry with extension `.4DProject` (for `clean.py`: at least one file
matching `*.4DProject`); zero markers disqualify, two or more do not. -/
theorem c3_amended (fs : FS) (d : List String) :
    (projInfoTrigger fs d = true ↔
      fs.isDirP (d ++ ["Project"]) = true ∧
      0 < (fs.listing (d ++ ["Project"])).countP
        (fun n => pySuffix n = ".4DProject")) ∧
    (cleanTrigA fs d = true ↔
      fs.isDirP (d ++ ["Project"]) = true ∧
      0 < (fs.listing (d ++ ["Project"])).countP
        (fun n => endsWithS n ".4DProject" && fs.isFileP (d ++ ["Project", n]))) := by
  constructor
  · rw [projInfoTrigger]
    simp [List.any_eq_true, List.countP_pos_iff]
  · rw [cleanTrigA]
    simp [List.any_eq_true, List.countP_pos_iff]

theorem c3_amended_witness : projInfoTrigger fsTwoMarkers [] = true :=
  ((c3_amended fsTwoMarkers []).1).mpr (by decide)

/-- A stripped function-declaration line with its optional modifiers in
the only order the regex accepts: `exposed`, then `shared`, then
`Function <name>`. -/
def funcLine (e sh : Bool) (name : List Char) : List Char :=
  (if e then "exposed ".toList else []) ++
  ((if sh then "shared ".toList else []) ++ ("Function ".toList ++ name))

/-- The string `analyze_class` appends to `functions` for such a line:
`f"{prefix}{name}"`. -/
def funcRecord (e sh : Bool) (name : List Char) : List Char :=
  (if e then "exposed ".toList else []) ++
  ((if sh then "shared ".toList else []) ++ name)

theorem matchExtends_funcLine (e sh : Bool) (name : List Char) :
    matchExtends (funcLine e sh name) = none := by
  cases e <;> cases sh <;> rfl

theorem matchProperty_funcLine (e sh : Bool) (name : List Char) :
    matchProperty (funcLine e sh name) = none := by
  cases e <;> cases sh <;> rfl

theorem matchFunction_funcLine (e sh : Bool) (c : Char) (cs : List Char)
    (hc : isWord c = true) (hcs : ∀ x ∈ cs, isWordDot x = true) :
    matchFunction (funcLine e sh (c :: cs)) = some (e, sh, c :: cs) := by
  have hwd : isWordDot c = true := by rw [isWordDot, hc]; rfl
  have hdrop : (c :: cs).dropWhile pySpace = c :: cs :=
    dropWhile_cons_of_neg _ _ _ (pySpace_of_isWordDot c hwd)
  have htake : cs.takeWhile isWordDot = cs := takeWhile_all _ _ hcs
  cases e <;> cases sh
  · have step : matchFunction (funcLine false false (c :: cs)) =
        (match (c :: cs).dropWhile pySpace with
         | [] => none
         | c' :: cs' =>
           if isWord c' then some (false, false, c' :: cs'.takeWhile isWordDot)
           else none) := rfl
    rw [step, hdrop]
    simp [hc, htake]
  · have step : matchFunction (funcLine false true (c :: cs)) =
        (match (c :: cs).dropWhile pySpace with
         | [] => none
         | c' :: cs' =>
           if isWord c' then some (false, true, c' :: cs'.takeWhile isWordDot)
           else none) := rfl
    rw [step, hdrop]
    simp [hc, htake]
  · have step : matchFunction (funcLine true false (c :: cs)) =
        (match (c :: cs).dropWhile pySpace with
         | [] => none
         | c' :: cs' =>
           if isWord c' then some (true, false, c' :: cs'.takeWhile isWordDot)
           else none) := rfl
    rw [step, hdrop]
    simp [hc, htake]
  · have step : matchFunction (funcLine true true (c :: cs)) =
        (match (c :: cs).dropWhile pySpace with
         | [] => none
         | c' :: cs' =>
           if isWord c' then some (true, true, c' :: cs'.takeWhile isWordDot)
           else none) := rfl
    rw [step, hdrop]
    simp [hc, htake]

theorem funcLine_strip (e sh : Bool) (c : Char) (cs : List Char)
    (hc : isWord c = true) (hcs : ∀ x ∈ cs, isWordDot x = true) :
    pyStrip (funcLine e sh (c :: cs)) = funcLine e sh (c :: cs) := by
  have hwd : isWordDot c = true := by rw [isWordDot, hc]; rfl
  apply pyStrip_eq_self
  · intro x hx
    cases e <;> cases sh <;> (cases hx; decide)
  · intro x hx
    have hform : funcLine e sh (c :: cs) =
        ((if e then "exposed ".toList else []) ++
          ((if sh then "shared ".toList else []) ++ "Function ".toList)) ++ (c :: cs) := by
      rw [funcLine]
      simp [List.append_assoc]
    rw [hform, List.getLast?_append_of_ne_nil _ (List.cons_ne_nil c cs)] at hx
    have hxmem : x ∈ c :: cs := by
      rcases List.mem_getLast?_eq_getLast (Option.mem_def.mpr hx) with ⟨hne, hxeq⟩
      rw [hxeq]
      exact List.getLast_mem hne
    rcases List.mem_cons.mp hxmem with rfl | hxcs
    · exact pySpace_of_isWordDot x hwd
    · exact pySpace_of_isWordDot x (hcs x hxcs)

/-- C4 counterexample: the stripped line `shared exposed Function f`
carries both modifiers, but in the order the regex
`(exposed\s+)?(shared\s+)?Function\s+(\w[\w.]*)` does not accept, so
`analyze_class` appends nothing to `functions` for it — the claim that
the modifiers are recognized in either order fails. -/
theorem c4_counterexample :
    (analyzeClassLines [("shared exposed Function f").toList]).functions = [] := by
  decide

/-- C4 (amended): for every stripped line consisting of optional
`exposed`, then optional `shared` — in that order only, the reverse
order is not recognized — followed by `Function` and a name made of
word characters and dots, `analyze_class` recognizes the line and
appends the modifier prefix and name to `functions` (and recognizes
nothing else in it). -/
theorem c4_amended (e sh : Bool) (c : Char) (cs : List Char)
    (hc : isWord c = true) (hcs : ∀ x ∈ cs, isWordDot x = true) :
    analyzeClassLines [funcLine e sh (c :: cs)] =
      ⟨none, [], [funcRecord e sh (c :: cs)]⟩ := by
  have hstrip := funcLine_strip e sh c cs hc hcs
  show analyzeStep ⟨none, [], []⟩ (funcLine e sh (c :: cs)) = _
  rw [analyzeStep]
  simp only [hstrip, matchExtends_funcLine, matchProperty_funcLine,
    matchFunction_funcLine e sh c cs hc hcs]
  rw [funcRecord]
  simp [List.append_assoc]

theorem c4_amended_witness :
    analyzeClassLines [funcLine true true ('f' :: [])] =
      ⟨none, [], [funcRecord true true ('f' :: [])]⟩ :=
  c4_amended true true 'f' [] (by decide) (by decide)

/-- C5: `analyze_class` never fails (it is a total function), and on a
text none of whose lines matches the inheritance-clause, property or
function pattern it yields `extends = None`, `properties = []`,
`functions = []`: unrecognized lines are ignored. -/
theorem c5_unrecognized_ignored (content : List Char)
    (h : ∀ l ∈ splitLinesPy content, recognizedLine l = false) :
    analyzeClassContent content = ⟨none, [], []⟩ := by
  rw [analyzeClassContent, analyzeClassLines]
  exact analyzeClassLines_unrecognized _ _ h

theorem c5_witness :
    analyzeClassContent ("hello world\n // arbitrary ; code\nEnd if").toList =
      ⟨none, [], []⟩ :=
  c5_unrecognized_ignored _ (by decide)

/-- C6 counterexample: on an existing manifest file whose contents do
not parse as JSON, the merger step raises (`load_json_file` has no
`try/except` around `json.load`) instead of starting from an empty
structure and writing a fresh manifest: the claimed behavior fails. -/
theorem c6_counterexample :
    addDepManifestStep (some FileContent.badC) "Foo" (JVal.jobj []) =
      Except.error () := rfl

/-- C6 (amended): if the manifest file exists but cannot be parsed,
the merger raises the parse error before any write, so the file is
never partially overwritten but no fresh manifest is produced either;
the explicit empty-structure start applies exactly when the manifest
file does not exist, in which case a complete fresh manifest holding
the new entry and the default schema version is written. -/
theorem c6_amended (name : String) (entry : JVal) :
    addDepManifestStep (some FileContent.badC) name entry = Except.error () ∧
    addDepManifestStep none name entry =
      Except.ok (JVal.jobj [("dependencies", JVal.jobj [(name, entry)]),
        ("version", JVal.jnum 2130)]) :=
  ⟨rfl, rfl⟩

theorem c6_amended_witness :
    addDepManifestStep none "Foo" (JVal.jstr "f") =
      Except.ok (JVal.jobj [("dependencies", JVal.jobj [("Foo", JVal.jstr "f")]),
        ("version", JVal.jnum 2130)]) :=
  (c6_amended "Foo" (JVal.jstr "f")).2

/-- C7: upserting `name` into a parsed manifest object changes only
`dependencies[name]`: every other dependency entry is looked up
unchanged, the new entry is present under `name`, and a top-level
`version` field that was already present keeps its value. -/
theorem c7_frame (m : List (String × JVal)) (name : String) (entry : JVal)
    (j' : JVal) (h : upsertManifest (JVal.jobj m) name entry = some j') :
    (∀ k, k ≠ name → getKey (manifestDeps j') k = getKey (manifestDeps (JVal.jobj m)) k) ∧
    getKey (manifestDeps j') name = some entry ∧
    (∀ v, getKey m "version" = some v → getKey (topFields j') "version" = some v) := by
  rw [upsertManifest] at h
  by_cases hdep : hasKey m "dependencies" = true
  · rcases hd0 : getKey m "dependencies" with _ | d0
    · rw [hasKey, hd0] at hdep
      cases hdep
    · by_cases hver : hasKey m "version" = true
      · simp only [hdep, if_true, hver, hd0] at h
        cases d0 with
        | jobj deps =>
          rw [Option.some_inj] at h
          subst h
          refine ⟨?_, ?_, ?_⟩
          · intro k hk
            rw [manifestDeps, getKey_setKey_self, manifestDeps, hd0,
              getKey_setKey_ne deps name k entry hk]
          · rw [manifestDeps, getKey_setKey_self, getKey_setKey_self]
          · intro v hv
            rw [topFields, getKey_setKey_ne m "dependencies" "version" _ (by decide), hv]
        | jnull => cases h
        | jbool b => cases h
        | jnum n => cases h
        | jstr s => cases h
        | jarr a => cases h
      · simp only [hdep, if_true, hver, Bool.false_eq_true, if_false,
          getKey_setKey_ne m "version" "dependencies" (JVal.jnum 2130) (by decide),
          hd0] at h
        cases d0 with
        | jobj deps =>
          rw [Option.some_inj] at h
          subst h
          refine ⟨?_, ?_, ?_⟩
          · intro k hk
            rw [manifestDeps, getKey_setKey_self, manifestDeps, hd0,
              getKey_setKey_ne deps name k entry hk]
          · rw [manifestDeps, getKey_setKey_self, getKey_setKey_self]
          · intro v hv
            rw [hasKey, hv] at hver
            cases hver rfl
        | jnull => cases h
        | jbool b => cases h
        | jnum n => cases h
        | jstr s => cases h
        | jarr a => cases h
  · have hd0 : getKey m "dependencies" = none := by
      rcases hd : getKey m "dependencies" with _ | d0
      · rfl
      · rw [hasKey, hd] at hdep
        cases hdep rfl
    by_cases hver : hasKey (setKey m "dependencies" (JVal.jobj [])) "version" = true
    · simp only [hdep, Bool.false_eq_true, if_false, hver, if_true,
        getKey_setKey_self] at h
      rw [Option.some_inj] at h
      subst h
      refine ⟨?_, ?_, ?_⟩
      · intro k hk
        rw [manifestDeps, getKey_setKey_self, manifestDeps, hd0,
          getKey_setKey_ne [] name k entry hk]
      · rw [manifestDeps, getKey_setKey_self, getKey_setKey_self]
      · intro v hv
        rw [topFields,
          getKey_setKey_ne _ "dependencies" "version" _ (by decide),
          getKey_setKey_ne m "dependencies" "version" _ (by decide), hv]
    · simp only [hdep, Bool.false_eq_true, if_false, hver,
        getKey_setKey_ne _ "version" "dependencies" (JVal.jnum 2130) (by decide),
        getKey_setKey_self] at h
      rw [Option.some_inj] at h
      subst h
      refine ⟨?_, ?_, ?_⟩
      · intro k hk
        rw [manifestDeps, getKey_setKey_self, manifestDeps, hd0,
          getKey_setKey_ne [] name k entry hk]
      · rw [manifestDeps, getKey_setKey_self, getKey_setKey_self]
      · intro v hv
        rw [hasKey, getKey_setKey_ne m "dependencies" "version" _ (by decide), hv]
          at hver
        cases hver rfl

theorem c7_witness :
    getKey (manifestDeps (JVal.jobj [("version", JVal.jnum 7),
      ("dependencies", JVal.jobj [("Bar", JVal.jstr "b"), ("Foo", JVal.jstr "f")])]))
      "Foo" = some (JVal.jstr "f") ∧
    getKey (manifestDeps (JVal.jobj [("version", JVal.jnum 7),
      ("dependencies", JVal.jobj [("Bar", JVal.jstr "b"), ("Foo", JVal.jstr "f")])]))
      "Bar" =
    getKey (manifestDeps (JVal.jobj [("version", JVal.jnum 7),
      ("dependencies", JVal.jobj [("Bar", JVal.jstr "b")])])) "Bar" := by
  have h := c7_frame [("version", JVal.jnum 7),
    ("dependencies", JVal.jobj [("Bar", JVal.jstr "b")])] "Foo" (JVal.jstr "f") _ rfl
  exact ⟨h.2.1, h.1 "Bar" (by decide)⟩

/-- C8: the manifest upsert is idempotent — upserting the same name and
entry into the result of an upsert reproduces that result exactly, so
two identical calls leave the same manifest contents as one. -/
theorem c8_idempotent (j : JVal) (name : String) (entry : JVal) (j' : JVal)
    (h : upsertManifest j name entry = some j') :
    upsertManifest j' name entry = some j' := by
  cases j with
  | jobj m =>
    rw [upsertManifest] at h
    set m1 := if hasKey m "dependencies" then m
      else setKey m "dependencies" (JVal.jobj []) with hm1
    set m2 := if hasKey m1 "version" then m1
      else setKey m1 "version" (JVal.jnum 2130) with hm2
    have hm2ver : hasKey m2 "version" = true := by
      by_cases hv : hasKey m1 "version" = true
      · rw [hm2, if_pos hv]
        exact hv
      · rw [hm2, if_neg hv]
        exact hasKey_setKey_self m1 "version" (JVal.jnum 2130)
    rcases hd : getKey m2 "dependencies" with _ | d0
    · rw [hd] at h
      cases h
    · rw [hd] at h
      cases d0 with
      | jobj deps =>
        rw [Option.some_inj] at h
        subst h
        rw [upsertManifest]
        have h1 : hasKey (setKey m2 "dependencies"
            (JVal.jobj (setKey deps name entry))) "dependencies" = true :=
          hasKey_setKey_self _ _ _
        have h2 : hasKey (setKey m2 "dependencies"
            (JVal.jobj (setKey deps name entry))) "version" = true := by
          rw [hasKey, getKey_setKey_ne m2 "dependencies" "version" _ (by decide)]
          exact hm2ver
        rw [if_pos h1, if_pos h2, getKey_setKey_self]
        simp only [setKey_setKey]
      | jnull => cases h
      | jbool b => cases h
      | jnum n => cases h
      | jstr s => cases h
      | jarr a => cases h
  | jnull => cases h
  | jbool b => cases h
  | jnum n => cases h
  | jstr s => cases h
  | jarr a => cases h

theorem c8_witness :
    upsertManifest (JVal.jobj [("dependencies", JVal.jobj [("Foo", JVal.jstr "new")]),
        ("version", JVal.jnum 2130)]) "Foo" (JVal.jstr "new") =
      some (JVal.jobj [("dependencies", JVal.jobj [("Foo", JVal.jstr "new")]),
        ("version", JVal.jnum 2130)]) :=
  c8_idempotent (JVal.jobj []) "Foo" (JVal.jstr "new") _ rfl

/-- C9 counterexample: in `fsProj` the OS enumerates the
`DatabaseMethods` files as `b.4dm, a.4dm` and form `F1`'s method files
as `n.4dm, m.4dm`; `count_files` (`rglob`) and `form_dir.glob` keep
that order, so these two categories are not enumerated in lexicographic
order — only methods, classes and form folders are sorted. -/
theorem c9_counterexample :
    dbMethodStems fsProj ["r"] = ["b", "a"] ∧
    isSortedB (dbMethodStems fsProj ["r"]) = false ∧
    formMethodStems fsProj ["r"] "F1" = ["n", "m"] ∧
    isSortedB (formMethodStems fsProj ["r"] "F1") = false := by
  decide

/-- C9 (amended): for every filesystem, the walk enumerates method
files, class files and form folders in lexicographic order by filename
(the code sorts those three categories); database-method files and the
method files inside each form folder are enumerated in the native
filesystem order, which need not be lexicographic. -/
theorem c9_amended (fs : FS) (root : List String) :
    isSortedB (mainMethodFilenames fs root) = true ∧
    isSortedB (mainClassFilenames fs root) = true ∧
    isSortedB (formNames fs root) = true := by
  refine ⟨?_, ?_, ?_⟩
  · rw [mainMethodFilenames]
    by_cases h : fs.existsP (root ++ ["Project", "Sources", "Methods"]) = true
    · rw [if_pos h]
      exact sortNames_sorted _
    · rw [if_neg h]
      rfl
  · rw [mainClassFilenames]
    by_cases h : fs.existsP (root ++ ["Project", "Sources", "Classes"]) = true
    · rw [if_pos h]
      exact sortNames_sorted _
    · rw [if_neg h]
      rfl
  · rw [formNames]
    by_cases h : fs.existsP (root ++ ["Project", "Sources", "Forms"]) = true
    · rw [if_pos h]
      exact isSortedB_filter _ _ (sortNames_sorted _)
    · rw [if_neg h]
      rfl

theorem c9_amended_witness :
    isSortedB (mainMethodFilenames fsProj ["r"]) = true :=
  (c9_amended fsProj ["r"]).1

/-- C10: every dependency entry built by `add_dependency` carries at
most one of `tag` and `version`; in particular, when the repo is given
as a GitHub release URL embedding a tag and a semantic version is also
supplied (with no CLI tag), the URL tag wins and the version is
dropped. -/
theorem entryFields_exclusive (g : String) (et v : Option String) :
    (hasKey (entryFields g et v) "tag" && hasKey (entryFields g et v) "version") =
      false := by
  rw [entryFields.eq_def]
  by_cases h1 : strTruthy et = true
  · rw [if_pos h1]
    rcases et with _ | t
    · cases h1
    · simp [hasKey, getKey]
  · rw [if_neg h1]
    by_cases h2 : strTruthy v = true
    · rw [if_pos h2]
      rcases v with _ | v0
      · cases h2
      · simp [hasKey, getKey]
    · rw [if_neg h2]
      simp [hasKey, getKey]

theorem c10_entry_exclusive (pathExists : String → Bool) (repo : String)
    (tag version : Option String) :
    (hasKey (buildDepEntry pathExists repo tag version) "tag" &&
      hasKey (buildDepEntry pathExists repo tag version) "version") = false ∧
    (is_github_url repo = true → tag = none →
      ∀ t, (parse_github_url repo).2 = some t → t ≠ "" →
      getKey (buildDepEntry pathExists repo tag version) "tag" =
        some (JVal.jstr t) ∧
      hasKey (buildDepEntry pathExists repo tag version) "version" = false) := by
  constructor
  · rw [buildDepEntry]
    by_cases hgr : is_github_repo pathExists repo = true
    · rw [if_pos hgr]
      exact entryFields_exclusive _ _ _
    · rw [if_neg hgr]
      rfl
  · intro hurl htag t hpt hne
    subst htag
    have hgr : is_github_repo pathExists repo = true := by
      rw [is_github_repo, if_pos hurl]
    have htt : strTruthy (some t) = true := by
      rw [strTruthy]
      simp [hne]
    rw [buildDepEntry]
    simp only [hgr, if_true, hurl, strTruthy, Bool.false_eq_true, if_false, hpt]
    rw [entryFields.eq_def, if_pos htt]
    constructor
    · simp [getKey]
    · simp [hasKey, getKey]

theorem c10_witness :
    getKey (buildDepEntry (fun _ => false)
      "https://github.com/o/r/releases/tag/1.0" none (some "latest")) "tag" =
      some (JVal.jstr "1.0") ∧
    hasKey (buildDepEntry (fun _ => false)
      "https://github.com/o/r/releases/tag/1.0" none (some "latest")) "version" =
      false :=
  (c10_entry_exclusive (fun _ => false)
    "https://github.com/o/r/releases/tag/1.0" none (some "latest")).2
    rfl rfl "1.0" rfl (by decide)

end Skills
